import Mathlib

/-!
Verification of the qstate query-parameter library (packages `@qstate/core`
and `@qstate/react`).

The development shallowly embeds the TypeScript source:

* Query strings are lists of characters (`Str`).  The platform primitive
  `URLSearchParams`, which the library uses for all query-string work, is
  modelled by `parseQuery` / `serializeQuery` together with the entry
  operations `getAll`, `deleteKey` and append.  The model follows the WHATWG
  `application/x-www-form-urlencoded` algorithm: tokens are split on `&` and
  the first `=`, `+` stands for space, and percent escapes encode the UTF-8
  bytes of a character.  Decoding of ill-formed input (stray `%`, invalid
  UTF-8) is modelled leniently; every input produced by the library itself
  is well formed, so this slack is never exercised by the theorems.
* JavaScript numbers are modelled as integers (`Int`); the schema codecs of
  the library only convert integers through decimal notation, and `Number`
  is modelled on that fragment (including `Number("") = 0`).
* A JavaScript `Date` with a non-NaN time value is modelled by its UTC
  calendar fields; equality of time values coincides with equality of the
  field tuples, so this is a faithful representation for the codec laws.
* `window.location.search` and `window.history` are threaded through the
  embedded functions as explicit arguments and results: the setter returns
  the final in-memory parameter list together with the list of URL search
  strings committed through `history.replaceState`, in order.  The
  notification-bus polyfill dispatches exactly one event per
  `replaceState` call, so the number of broadcasts equals the number of
  commits.
-/

/-- Strings are modelled as lists of characters. -/
abbrev Str := List Char

/-- Convenience conversion from Lean string literals. -/
def str (s : String) : Str := s.data

/-! ## UTF-8 bytes of a string -/

/-- The UTF-8 bytes of one character (as natural numbers below 256). -/
def utf8EncodeChar (c : Char) : List Nat :=
  if c.toNat < 0x80 then [c.toNat]
  else if c.toNat < 0x800 then [0xC0 + c.toNat / 64, 0x80 + c.toNat % 64]
  else if c.toNat < 0x10000 then
    [0xE0 + c.toNat / 4096, 0x80 + c.toNat / 64 % 64, 0x80 + c.toNat % 64]
  else
    [0xF0 + c.toNat / 262144, 0x80 + c.toNat / 4096 % 64, 0x80 + c.toNat / 64 % 64,
      0x80 + c.toNat % 64]

/-- The UTF-8 bytes of a string. -/
def utf8Encode (s : Str) : List Nat := s.flatMap utf8EncodeChar

/-- State machine decoding a UTF-8 byte sequence back to characters.  The
state holds the partial code point and the number of continuation bytes still
expected.  Ill-formed sequences are decoded leniently (single replacement
character, no resynchronisation subtleties); the decoder is only applied to
well-formed output of `utf8Encode` in the proofs. -/
def utf8DecodeAux : Option (Nat × Nat) → List Nat → Str
  | none, [] => []
  | some _, [] => [Char.ofNat 0xFFFD]
  | none, b :: rest =>
    if b < 0x80 then Char.ofNat b :: utf8DecodeAux none rest
    else if b < 0xC0 then Char.ofNat 0xFFFD :: utf8DecodeAux none rest
    else if b < 0xE0 then utf8DecodeAux (some (b - 0xC0, 1)) rest
    else if b < 0xF0 then utf8DecodeAux (some (b - 0xE0, 2)) rest
    else utf8DecodeAux (some (b - 0xF0, 3)) rest
  | some (acc, k), b :: rest =>
    if 0x80 ≤ b ∧ b < 0xC0 then
      if k ≤ 1 then Char.ofNat (acc * 64 + (b - 0x80)) :: utf8DecodeAux none rest
      else utf8DecodeAux (some (acc * 64 + (b - 0x80), k - 1)) rest
    else Char.ofNat 0xFFFD :: utf8DecodeAux none rest

/-- Decode a UTF-8 byte sequence to characters. -/
def utf8Decode (bs : List Nat) : Str := utf8DecodeAux none bs


theorem char_toNat_lt_big (c : Char) : c.toNat < 0x110000 := by
  rcases c.valid with h | h
  · exact Nat.lt_trans h (by norm_num)
  · exact h.2

theorem utf8EncodeChar_lt_256 {c : Char} {b : Nat} (h : b ∈ utf8EncodeChar c) : b < 256 := by
  have hc := char_toNat_lt_big c
  unfold utf8EncodeChar at h
  split_ifs at h with h1 h2 h3 <;> simp only [List.mem_cons, List.mem_singleton,
    List.not_mem_nil, or_false] at h <;> omega

theorem utf8Decode_encodeChar (c : Char) (rest : List Nat) :
    utf8Decode (utf8EncodeChar c ++ rest) = c :: utf8Decode rest := by
  unfold utf8Decode utf8EncodeChar
  by_cases h1 : c.toNat < 0x80
  · simp only [if_pos h1, List.cons_append, List.nil_append]
    rw [utf8DecodeAux, if_pos h1, Char.ofNat_toNat]
  · by_cases h2 : c.toNat < 0x800
    · simp only [if_neg h1, if_pos h2, List.cons_append, List.nil_append]
      rw [utf8DecodeAux, if_neg (by omega : ¬ (0xC0 + c.toNat / 64 < 0x80)),
        if_neg (by omega : ¬ (0xC0 + c.toNat / 64 < 0xC0)),
        if_pos (by omega : 0xC0 + c.toNat / 64 < 0xE0)]
      rw [utf8DecodeAux,
        if_pos (by omega : 0x80 ≤ 0x80 + c.toNat % 64 ∧ 0x80 + c.toNat % 64 < 0xC0),
        if_pos (by norm_num : (1 : Nat) ≤ 1)]
      have e : (0xC0 + c.toNat / 64 - 0xC0) * 64 + (0x80 + c.toNat % 64 - 0x80) = c.toNat := by
        omega
      rw [e, Char.ofNat_toNat]
    · by_cases h3 : c.toNat < 0x10000
      · simp only [if_neg h1, if_neg h2, if_pos h3, List.cons_append, List.nil_append]
        rw [utf8DecodeAux, if_neg (by omega : ¬ (0xE0 + c.toNat / 4096 < 0x80)),
          if_neg (by omega : ¬ (0xE0 + c.toNat / 4096 < 0xC0)),
          if_neg (by omega : ¬ (0xE0 + c.toNat / 4096 < 0xE0)),
          if_pos (by omega : 0xE0 + c.toNat / 4096 < 0xF0)]
        rw [utf8DecodeAux,
          if_pos (by omega : 0x80 ≤ 0x80 + c.toNat / 64 % 64 ∧ 0x80 + c.toNat / 64 % 64 < 0xC0),
          if_neg (by norm_num : ¬ ((2 : Nat) ≤ 1))]
        rw [utf8DecodeAux,
          if_pos (by omega : 0x80 ≤ 0x80 + c.toNat % 64 ∧ 0x80 + c.toNat % 64 < 0xC0),
          if_pos (by norm_num : (2 : Nat) - 1 ≤ 1)]
        have e : ((0xE0 + c.toNat / 4096 - 0xE0) * 64 + (0x80 + c.toNat / 64 % 64 - 0x80)) * 64 +
            (0x80 + c.toNat % 64 - 0x80) = c.toNat := by omega
        rw [e, Char.ofNat_toNat]
      · have h4 := char_toNat_lt_big c
        simp only [if_neg h1, if_neg h2, if_neg h3, List.cons_append, List.nil_append]
        rw [utf8DecodeAux, if_neg (by omega : ¬ (0xF0 + c.toNat / 262144 < 0x80)),
          if_neg (by omega : ¬ (0xF0 + c.toNat / 262144 < 0xC0)),
          if_neg (by omega : ¬ (0xF0 + c.toNat / 262144 < 0xE0)),
          if_neg (by omega : ¬ (0xF0 + c.toNat / 262144 < 0xF0))]
        rw [utf8DecodeAux,
          if_pos (by omega : 0x80 ≤ 0x80 + c.toNat / 4096 % 64 ∧ 0x80 + c.toNat / 4096 % 64 < 0xC0),
          if_neg (by norm_num : ¬ ((3 : Nat) ≤ 1))]
        rw [utf8DecodeAux,
          if_pos (by omega : 0x80 ≤ 0x80 + c.toNat / 64 % 64 ∧ 0x80 + c.toNat / 64 % 64 < 0xC0),
          if_neg (by norm_num : ¬ ((3 : Nat) - 1 ≤ 1))]
        rw [utf8DecodeAux,
          if_pos (by omega : 0x80 ≤ 0x80 + c.toNat % 64 ∧ 0x80 + c.toNat % 64 < 0xC0),
          if_pos (by norm_num : (3 : Nat) - 1 - 1 ≤ 1)]
        have e : (((0xF0 + c.toNat / 262144 - 0xF0) * 64 + (0x80 + c.toNat / 4096 % 64 - 0x80)) *
            64 + (0x80 + c.toNat / 64 % 64 - 0x80)) * 64 + (0x80 + c.toNat % 64 - 0x80) =
            c.toNat := by omega
        rw [e, Char.ofNat_toNat]

theorem utf8Decode_utf8Encode (s : Str) : utf8Decode (utf8Encode s) = s := by
  induction s with
  | nil => rfl
  | cons c rest ih =>
    have e : utf8Encode (c :: rest) = utf8EncodeChar c ++ utf8Encode rest := by
      simp [utf8Encode]
    rw [e, utf8Decode_encodeChar, ih]

/-! ## form-urlencoded token encoding

The serializer of `URLSearchParams` writes a token by keeping the safe
characters (ASCII alphanumerics and `*` `-` `.` `_`), turning space into
`+`, and percent-encoding the UTF-8 bytes of every other character with
uppercase hexadecimal digits.  The reader maps `+` back to space and
percent-decodes byte escapes (case-insensitively), leaving invalid escapes
untouched. -/

def isUrlSafe (c : Char) : Bool :=
  (97 ≤ c.toNat && c.toNat ≤ 122) || (65 ≤ c.toNat && c.toNat ≤ 90) ||
    (48 ≤ c.toNat && c.toNat ≤ 57) || c.toNat == 42 || c.toNat == 45 ||
    c.toNat == 46 || c.toNat == 95

def hexDigitChar (d : Nat) : Char :=
  if d < 10 then Char.ofNat (48 + d) else Char.ofNat (55 + d)

def percentEncodeByte (b : Nat) : Str :=
  ['%', hexDigitChar (b / 16), hexDigitChar (b % 16)]

def plusToSpace (c : Char) : Char := if c = '+' then ' ' else c

def encodeChunk (c : Char) : Str :=
  if isUrlSafe c then [c]
  else if c = ' ' then ['+']
  else (utf8EncodeChar c).flatMap percentEncodeByte

def encodeToken (s : Str) : Str := s.flatMap encodeChunk

def hexVal (b : Nat) : Option Nat :=
  if 48 ≤ b ∧ b ≤ 57 then some (b - 48)
  else if 65 ≤ b ∧ b ≤ 70 then some (b - 55)
  else if 97 ≤ b ∧ b ≤ 102 then some (b - 87)
  else none

def percentDecodeBytes : List Nat → List Nat
  | [] => []
  | [b] => [b]
  | [b, b2] => [b, b2]
  | b :: h1 :: h2 :: rest =>
    if b = 37 ∧ (hexVal h1).isSome ∧ (hexVal h2).isSome then
      (16 * ((hexVal h1).getD 0) + (hexVal h2).getD 0) :: percentDecodeBytes rest
    else b :: percentDecodeBytes (h1 :: h2 :: rest)

/-- Bytes of a token after the reader has mapped `+` to space. -/
def tokenBytes (t : Str) : List Nat := utf8Encode (t.map plusToSpace)

/-- Decode one form-urlencoded token. -/
def decodeToken (s : Str) : Str := utf8Decode (percentDecodeBytes (tokenBytes s))

theorem tokenBytes_append (a b : Str) :
    tokenBytes (a ++ b) = tokenBytes a ++ tokenBytes b := by
  simp [tokenBytes, utf8Encode]

theorem percentDecodeBytes_cons {b : Nat} (hb : b ≠ 37) (B : List Nat) :
    percentDecodeBytes (b :: B) = b :: percentDecodeBytes B := by
  match B with
  | [] => simp [percentDecodeBytes]
  | [b2] => simp [percentDecodeBytes]
  | h1 :: h2 :: rest => simp [percentDecodeBytes, hb]

theorem percentDecodeBytes_escape {t1 t2 a d : Nat} (h1 : hexVal t1 = some a)
    (h2 : hexVal t2 = some d) (B : List Nat) :
    percentDecodeBytes (37 :: t1 :: t2 :: B) = (16 * a + d) :: percentDecodeBytes B := by
  simp [percentDecodeBytes, h1, h2]

theorem hexDigitChar_toNat {d : Nat} (h : d < 16) :
    (hexDigitChar d).toNat = if d < 10 then 48 + d else 55 + d := by
  interval_cases d <;> rfl

theorem hexVal_hexDigitChar {d : Nat} (h : d < 16) :
    hexVal ((hexDigitChar d).toNat) = some d := by
  interval_cases d <;> rfl

theorem isUrlSafe_facts {c : Char} (h : isUrlSafe c = true) :
    c.toNat < 128 ∧ c.toNat ≠ 43 ∧ c.toNat ≠ 37 ∧ c.toNat ≠ 32 := by
  simp only [isUrlSafe, Bool.or_eq_true, Bool.and_eq_true, decide_eq_true_eq,
    beq_iff_eq] at h
  omega

theorem plusToSpace_of_toNat_ne {c : Char} (h : c.toNat ≠ 43) : plusToSpace c = c := by
  unfold plusToSpace
  rw [if_neg]
  intro hc
  subst hc
  exact h rfl

theorem tokenBytes_percentEncodeByte {b : Nat} (hb : b < 256) :
    tokenBytes (percentEncodeByte b) =
      [37, (hexDigitChar (b / 16)).toNat, (hexDigitChar (b % 16)).toNat] := by
  have h1 : b / 16 < 16 := by omega
  have h2 : b % 16 < 16 := by omega
  have t1 := hexDigitChar_toNat h1
  have t2 := hexDigitChar_toNat h2
  have p1 : plusToSpace (hexDigitChar (b / 16)) = hexDigitChar (b / 16) :=
    plusToSpace_of_toNat_ne (by split_ifs at t1 <;> omega)
  have p2 : plusToSpace (hexDigitChar (b % 16)) = hexDigitChar (b % 16) :=
    plusToSpace_of_toNat_ne (by split_ifs at t2 <;> omega)
  have e1 : utf8EncodeChar (hexDigitChar (b / 16)) = [(hexDigitChar (b / 16)).toNat] := by
    unfold utf8EncodeChar
    rw [if_pos (by split_ifs at t1 <;> omega)]
  have e2 : utf8EncodeChar (hexDigitChar (b % 16)) = [(hexDigitChar (b % 16)).toNat] := by
    unfold utf8EncodeChar
    rw [if_pos (by split_ifs at t2 <;> omega)]
  have e0 : utf8EncodeChar (plusToSpace '%') = [37] := rfl
  simp [tokenBytes, percentEncodeByte, utf8Encode, p1, p2, e0, e1, e2]

theorem percentDecodeBytes_tokenBytes_escape {b : Nat} (hb : b < 256) (B : List Nat) :
    percentDecodeBytes (tokenBytes (percentEncodeByte b) ++ B) =
      b :: percentDecodeBytes B := by
  rw [tokenBytes_percentEncodeByte hb]
  have h1 : b / 16 < 16 := by omega
  have h2 : b % 16 < 16 := by omega
  rw [List.cons_append, List.cons_append, List.cons_append, List.nil_append,
    percentDecodeBytes_escape (hexVal_hexDigitChar h1) (hexVal_hexDigitChar h2)]
  have : 16 * (b / 16) + b % 16 = b := by omega
  rw [this]

theorem percentDecodeBytes_escaped_char {bl : List Nat} (hb : ∀ b ∈ bl, b < 256) (B : List Nat) :
    percentDecodeBytes (tokenBytes (bl.flatMap percentEncodeByte) ++ B) =
      bl ++ percentDecodeBytes B := by
  induction bl with
  | nil => simp [tokenBytes, utf8Encode]
  | cons b bl ih =>
    rw [List.flatMap_cons, tokenBytes_append, List.append_assoc,
      percentDecodeBytes_tokenBytes_escape (hb b (List.mem_cons_self b bl)),
      ih (fun x hx => hb x (List.mem_cons_of_mem b hx)), List.cons_append]

theorem percentDecodeBytes_chunk (c : Char) (B : List Nat) :
    percentDecodeBytes (tokenBytes (encodeChunk c) ++ B) =
      utf8EncodeChar c ++ percentDecodeBytes B := by
  unfold encodeChunk
  by_cases hs : isUrlSafe c
  · rw [if_pos hs]
    obtain ⟨hlt, hne43, hne37, _⟩ := isUrlSafe_facts hs
    have e : tokenBytes [c] = [c.toNat] := by
      simp [tokenBytes, utf8Encode, plusToSpace_of_toNat_ne hne43]
      unfold utf8EncodeChar
      rw [if_pos hlt]
    rw [e, List.cons_append, List.nil_append, percentDecodeBytes_cons hne37]
    unfold utf8EncodeChar
    rw [if_pos hlt, List.cons_append, List.nil_append]
  · rw [if_neg hs]
    by_cases hsp : c = ' '
    · subst hsp
      rw [if_pos rfl]
      have e : tokenBytes ['+'] = [32] := by
        simp [tokenBytes, plusToSpace, utf8Encode]
        rfl
      rw [e, List.cons_append, List.nil_append,
        percentDecodeBytes_cons (by omega : (32 : Nat) ≠ 37)]
      rfl
    · rw [if_neg hsp]
      exact percentDecodeBytes_escaped_char (fun b hb => utf8EncodeChar_lt_256 hb) B

theorem percentDecodeBytes_encodeToken (s : Str) (B : List Nat) :
    percentDecodeBytes (tokenBytes (encodeToken s) ++ B) =
      utf8Encode s ++ percentDecodeBytes B := by
  induction s with
  | nil => simp [encodeToken, tokenBytes, utf8Encode]
  | cons c s ih =>
    rw [show encodeToken (c :: s) = encodeChunk c ++ encodeToken s from List.flatMap_cons ..,
      tokenBytes_append, List.append_assoc, percentDecodeBytes_chunk, ih,
      show utf8Encode (c :: s) = utf8EncodeChar c ++ utf8Encode s by simp [utf8Encode],
      List.append_assoc]

theorem decodeToken_encodeToken (s : Str) : decodeToken (encodeToken s) = s := by
  unfold decodeToken
  have e := percentDecodeBytes_encodeToken s []
  rw [List.append_nil] at e
  rw [e]
  have : percentDecodeBytes [] = [] := rfl
  rw [this, List.append_nil, utf8Decode_utf8Encode]

/-! ## Parsing and serializing whole query strings -/

/-- Split a string on every occurrence of a separator character; the result
always has one more element than the number of separators. -/
def splitOnChar (sep : Char) : Str → List Str
  | [] => [[]]
  | c :: rest =>
    if c = sep then [] :: splitOnChar sep rest
    else (c :: (splitOnChar sep rest).headD []) :: (splitOnChar sep rest).tail

/-- Join tokens with the `&` separator. -/
def joinAmp : List Str → Str
  | [] => []
  | [t] => t
  | t :: rest => t ++ '&' :: joinAmp rest

/-- Split a segment at its first `=` sign; a segment without `=` stands for
the key with an empty value, exactly as `URLSearchParams` reads it. -/
def splitEq : Str → Str × Str
  | [] => ([], [])
  | c :: rest =>
    if c = '=' then ([], rest)
    else (c :: (splitEq rest).1, (splitEq rest).2)

/-- A single leading question mark is ignored, as in `new URLSearchParams`. -/
def dropLeadingQ (s : Str) : Str :=
  match s with
  | [] => []
  | c :: rest => if c = '?' then rest else c :: rest

def parsePair (seg : Str) : Str × Str :=
  (decodeToken (splitEq seg).1, decodeToken (splitEq seg).2)

/-- Parse a query string into its ordered list of key/value entries; this is
the list of entries a fresh `URLSearchParams` holds for that input. -/
def parseQuery (s : Str) : List (Str × Str) :=
  ((splitOnChar '&' (dropLeadingQ s)).filter (fun seg => !seg.isEmpty)).map parsePair

def serializePair (p : Str × Str) : Str := encodeToken p.1 ++ '=' :: encodeToken p.2

/-- Serialize an entry list back to a query string; this is
`URLSearchParams.toString`. -/
def serializeQuery (l : List (Str × Str)) : Str := joinAmp (l.map serializePair)

theorem splitOnChar_ne_nil (sep : Char) (s : Str) : splitOnChar sep s ≠ [] := by
  cases s with
  | nil => simp [splitOnChar]
  | cons c rest =>
    rw [splitOnChar]
    split_ifs <;> simp

theorem splitOnChar_no_sep {sep : Char} {t : Str} (h : sep ∉ t) :
    splitOnChar sep t = [t] := by
  induction t with
  | nil => rfl
  | cons c rest ih =>
    rw [splitOnChar, if_neg (fun hc => h (by rw [← hc]; exact List.mem_cons_self c rest)),
      ih (fun hm => h (List.mem_cons_of_mem c hm))]
    rfl

theorem splitOnChar_append {sep : Char} {t : Str} (h : sep ∉ t) (r : Str) :
    splitOnChar sep (t ++ sep :: r) = t :: splitOnChar sep r := by
  induction t with
  | nil => simp [splitOnChar]
  | cons c rest ih =>
    rw [List.cons_append, splitOnChar,
      if_neg (fun hc => h (by rw [← hc]; exact List.mem_cons_self c rest)),
      ih (fun hm => h (List.mem_cons_of_mem c hm))]
    rfl

theorem splitEq_append {a : Str} (h : '=' ∉ a) (b : Str) :
    splitEq (a ++ '=' :: b) = (a, b) := by
  induction a with
  | nil => simp [splitEq]
  | cons c rest ih =>
    rw [List.cons_append, splitEq,
      if_neg (fun hc => h (by rw [← hc]; exact List.mem_cons_self c rest)),
      ih (fun hm => h (List.mem_cons_of_mem c hm))]

theorem isUrlSafe_ranges {c : Char} (h : isUrlSafe c = true) :
    (97 ≤ c.toNat ∧ c.toNat ≤ 122) ∨ (65 ≤ c.toNat ∧ c.toNat ≤ 90) ∨
      (48 ≤ c.toNat ∧ c.toNat ≤ 57) ∨ c.toNat = 42 ∨ c.toNat = 45 ∨
      c.toNat = 46 ∨ c.toNat = 95 := by
  simp only [isUrlSafe, Bool.or_eq_true, Bool.and_eq_true, decide_eq_true_eq,
    beq_iff_eq] at h
  omega

theorem encodeToken_toNat {s : Str} {c : Char} (h : c ∈ encodeToken s) :
    c.toNat ≠ 38 ∧ c.toNat ≠ 61 ∧ c.toNat ≠ 63 := by
  unfold encodeToken at h
  rw [List.mem_flatMap] at h
  obtain ⟨c0, -, hc⟩ := h
  unfold encodeChunk at hc
  split_ifs at hc with hs hsp
  · rw [List.mem_singleton] at hc
    subst hc
    rcases isUrlSafe_ranges hs with h | h | h | h | h | h | h <;> omega
  · rw [List.mem_singleton] at hc
    subst hc
    refine ⟨by decide, by decide, by decide⟩
  · rw [List.mem_flatMap] at hc
    obtain ⟨b, hb, hcb⟩ := hc
    have hb256 : b < 256 := utf8EncodeChar_lt_256 hb
    simp only [percentEncodeByte, List.mem_cons, List.not_mem_nil, or_false] at hcb
    rcases hcb with hcb | hcb | hcb
    · subst hcb
      refine ⟨by decide, by decide, by decide⟩
    · subst hcb
      have := hexDigitChar_toNat (by omega : b / 16 < 16)
      split_ifs at this <;> omega
    · subst hcb
      have := hexDigitChar_toNat (by omega : b % 16 < 16)
      split_ifs at this <;> omega

theorem amp_not_mem_encodeToken {s : Str} : '&' ∉ encodeToken s := by
  intro h
  exact (encodeToken_toNat h).1 rfl

theorem eq_not_mem_encodeToken {s : Str} : '=' ∉ encodeToken s := by
  intro h
  exact (encodeToken_toNat h).2.1 rfl

theorem amp_not_mem_serializePair (p : Str × Str) : '&' ∉ serializePair p := by
  unfold serializePair
  rw [List.mem_append, List.mem_cons]
  rintro (h | h | h)
  · exact amp_not_mem_encodeToken h
  · exact absurd h (by decide)
  · exact amp_not_mem_encodeToken h

theorem serializePair_ne_nil (p : Str × Str) : serializePair p ≠ [] := by
  unfold serializePair
  simp

theorem splitEq_serializePair (p : Str × Str) :
    splitEq (serializePair p) = (encodeToken p.1, encodeToken p.2) :=
  splitEq_append eq_not_mem_encodeToken (encodeToken p.2)

theorem parsePair_serializePair (p : Str × Str) : parsePair (serializePair p) = p := by
  unfold parsePair
  rw [splitEq_serializePair, decodeToken_encodeToken, decodeToken_encodeToken]

theorem splitOnChar_joinAmp {ts : List Str} (hne : ts ≠ [])
    (hmem : ∀ t ∈ ts, '&' ∉ t) : splitOnChar '&' (joinAmp ts) = ts := by
  induction ts with
  | nil => exact absurd rfl hne
  | cons t rest ih =>
    cases rest with
    | nil => exact splitOnChar_no_sep (hmem t (List.mem_cons_self t []))
    | cons u rest2 =>
      rw [show joinAmp (t :: u :: rest2) = t ++ '&' :: joinAmp (u :: rest2) from rfl,
        splitOnChar_append (hmem t (List.mem_cons_self t (u :: rest2))),
        ih (by simp) (fun x hx => hmem x (List.mem_cons_of_mem t hx))]

theorem dropLeadingQ_joinAmp {t : Str} (ts : List Str) (hne : t ≠ [])
    (hq : t.headD ' ' ≠ '?') : dropLeadingQ (joinAmp (t :: ts)) = joinAmp (t :: ts) := by
  cases t with
  | nil => exact absurd rfl hne
  | cons c t0 =>
    have hc : c ≠ '?' := hq
    cases ts with
    | nil => simp [joinAmp, dropLeadingQ, hc]
    | cons u rest => simp [joinAmp, dropLeadingQ, hc]

theorem headD_serializePair_ne (p : Str × Str) : (serializePair p).headD ' ' ≠ '?' := by
  unfold serializePair
  cases he : encodeToken p.1 with
  | nil =>
    rw [List.nil_append, List.headD_cons]
    decide
  | cons c t0 =>
    have hc : c ∈ encodeToken p.1 := by
      rw [he]
      exact List.mem_cons_self c t0
    intro h
    simp only [List.cons_append, List.headD_cons] at h
    subst h
    exact (encodeToken_toNat hc).2.2 rfl

theorem parseQuery_serializeQuery (l : List (Str × Str)) :
    parseQuery (serializeQuery l) = l := by
  cases l with
  | nil => rfl
  | cons p rest =>
    unfold parseQuery serializeQuery
    rw [List.map_cons, dropLeadingQ_joinAmp (rest.map serializePair)
      (serializePair_ne_nil p) (headD_serializePair_ne p)]
    rw [← List.map_cons, splitOnChar_joinAmp (by simp)
      (fun t ht => by
        rw [List.mem_map] at ht
        obtain ⟨q, -, hq⟩ := ht
        rw [← hq]
        exact amp_not_mem_serializePair q)]
    rw [List.filter_eq_self.mpr (fun t ht => by
      rw [List.mem_map] at ht
      obtain ⟨q, -, hq⟩ := ht
      rw [← hq]
      simp [serializePair_ne_nil q, List.isEmpty_iff])]
    rw [List.map_map]
    rw [show parsePair ∘ serializePair = id from funext parsePair_serializePair]
    exact List.map_id _

/-! ## URLSearchParams entry operations -/

/-- `URLSearchParams.getAll(name)`: all values stored under a key, in order. -/
def getAll (params : List (Str × Str)) (name : Str) : List Str :=
  (params.filter (fun p => p.1 == name)).map (fun p => p.2)

/-- `URLSearchParams.delete(name)`: drop every entry with the given key. -/
def deleteKey (name : Str) (params : List (Str × Str)) : List (Str × Str) :=
  params.filter (fun p => p.1 != name)

/-! ## The schema type of the library

Mirrors `QueryParamSetting<T>` from the core package.  A decoder returning
`undefined` is modelled as `none`, a missing `defaultValue` or `paramName`
as `none` as well.  The value type is a parameter; each standard codec fixes
its own. -/

structure QueryParamSetting (V : Type) where
  decoder : List Str → Option V
  defaultValue : Option V := none
  encoder : V → List Str
  paramName : Option Str := none

/-- JavaScript truthiness of a value of type `V`; `none` (undefined) is
always falsy. -/
class JSTruthy (V : Type) where
  truthy : V → Bool

def optTruthy {V : Type} [JSTruthy V] : Option V → Bool
  | none => false
  | some v => JSTruthy.truthy v

instance : JSTruthy Int := ⟨fun n => n != 0⟩

instance : JSTruthy Bool := ⟨fun b => b⟩

instance : JSTruthy (List Char) := ⟨fun s => !s.isEmpty⟩

instance : JSTruthy (List Str) := ⟨fun _ => true⟩

/-! ## JavaScript numbers on the integer fragment -/

def digitChar (d : Nat) : Char := Char.ofNat (48 + d)

def digitsFuel : Nat → Nat → List Nat
  | 0, _ => []
  | _ + 1, 0 => []
  | fuel + 1, n + 1 => (n + 1) % 10 :: digitsFuel fuel ((n + 1) / 10)

def ofDigs : List Nat → Nat
  | [] => 0
  | d :: ds => d + 10 * ofDigs ds

/-- Decimal notation of a natural number, as produced by `toString`. -/
def natToString (n : Nat) : Str :=
  if n = 0 then ['0'] else ((digitsFuel n n).map digitChar).reverse

/-- `Number.prototype.toString` on the integer fragment. -/
def intToString (n : Int) : Str :=
  match n with
  | .ofNat m => natToString m
  | .negSucc m => '-' :: natToString (m + 1)

def parseDigitsAux : Nat → Str → Option Nat
  | acc, [] => some acc
  | acc, c :: rest =>
    if 48 ≤ c.toNat ∧ c.toNat ≤ 57 then parseDigitsAux (10 * acc + (c.toNat - 48)) rest
    else none

def parseDigits (s : Str) : Option Nat :=
  if s.isEmpty then none else parseDigitsAux 0 s

def isJsWhitespace (c : Char) : Bool :=
  c == ' ' || c.toNat == 9 || c.toNat == 10 || c.toNat == 13 || c.toNat == 12 || c.toNat == 11

def trimWs (s : Str) : Str :=
  ((s.dropWhile isJsWhitespace).reverse.dropWhile isJsWhitespace).reverse

/-- The `Number(string)` conversion on the integer fragment: whitespace is
trimmed, the empty string converts to `0`, an optional sign is followed by
decimal digits, and anything else is NaN (`none`).  Fractional, exponent,
hexadecimal and `Infinity` forms lie outside the integer fragment modelled
here. -/
def jsStringToNumber (s : Str) : Option Int :=
  let t := trimWs s
  if t.isEmpty then some 0
  else if t.headD ' ' = '-' then (parseDigits t.tail).map (fun n => -(n : Int))
  else if t.headD ' ' = '+' then (parseDigits t.tail).map (fun n => (n : Int))
  else (parseDigits t).map (fun n => (n : Int))

theorem digitChar_toNat {d : Nat} (h : d < 10) : (digitChar d).toNat = 48 + d := by
  interval_cases d <;> rfl

theorem digitsFuel_lt_ten {fuel n d : Nat} (h : d ∈ digitsFuel fuel n) : d < 10 := by
  induction fuel generalizing n with
  | zero => simp [digitsFuel] at h
  | succ fuel ih =>
    cases n with
    | zero => simp [digitsFuel] at h
    | succ m =>
      rw [digitsFuel] at h
      rcases List.mem_cons.mp h with h | h
      · omega
      · exact ih h

theorem ofDigs_digitsFuel {fuel n : Nat} (h : n ≤ fuel) : ofDigs (digitsFuel fuel n) = n := by
  induction fuel generalizing n with
  | zero =>
    interval_cases n
    rfl
  | succ fuel ih =>
    cases n with
    | zero => rfl
    | succ m =>
      rw [digitsFuel, ofDigs, ih (by omega : (m + 1) / 10 ≤ fuel)]
      omega

theorem parseDigitsAux_map {bl : List Nat} (hd : ∀ d ∈ bl, d < 10) (acc : Nat) :
    parseDigitsAux acc (bl.map digitChar) =
      some (bl.foldl (fun a d => 10 * a + d) acc) := by
  induction bl generalizing acc with
  | nil => rfl
  | cons d bl ih =>
    have hd0 : d < 10 := hd d (List.mem_cons_self d bl)
    rw [List.map_cons, parseDigitsAux, digitChar_toNat hd0,
      if_pos (by omega : 48 ≤ 48 + d ∧ 48 + d ≤ 57),
      ih (fun x hx => hd x (List.mem_cons_of_mem d hx)), List.foldl_cons]
    congr 2
    omega

theorem foldl_reverse_ofDigs (dl : List Nat) :
    dl.reverse.foldl (fun a d => 10 * a + d) 0 = ofDigs dl := by
  induction dl with
  | nil => rfl
  | cons d dl ih =>
    rw [List.reverse_cons, List.foldl_append, ih, ofDigs]
    simp [List.foldl_cons]
    omega

theorem parseDigits_natToString (n : Nat) : parseDigits (natToString n) = some n := by
  unfold natToString
  by_cases h0 : n = 0
  · subst h0
    rfl
  · rw [if_neg h0]
    have hne : digitsFuel n n ≠ [] := by
      cases n with
      | zero => exact absurd rfl h0
      | succ m =>
        rw [digitsFuel]
        simp
    rw [← List.map_reverse]
    unfold parseDigits
    rw [if_neg (by
      simp only [List.isEmpty_eq_true, List.map_eq_nil_iff, List.reverse_eq_nil_iff]
      exact hne)]
    rw [parseDigitsAux_map (fun d hd => digitsFuel_lt_ten (List.mem_reverse.mp hd)) 0,
      foldl_reverse_ofDigs, ofDigs_digitsFuel (Nat.le_refl n)]

theorem natToString_not_whitespace {n : Nat} {c : Char} (h : c ∈ natToString n) :
    isJsWhitespace c = false := by
  unfold natToString at h
  split_ifs at h with h0
  · rw [List.mem_singleton] at h
    subst h
    rfl
  · rw [List.mem_reverse, List.mem_map] at h
    obtain ⟨d, hd, hc⟩ := h
    have : d < 10 := digitsFuel_lt_ten hd
    subst hc
    have ht := digitChar_toNat this
    simp only [isJsWhitespace, Bool.or_eq_false_iff, beq_eq_false_iff_ne, ne_eq]
    refine ⟨⟨⟨⟨⟨fun hc => ?_, by omega⟩, by omega⟩, by omega⟩, by omega⟩, by omega⟩
    rw [hc] at ht
    rw [show (' ').toNat = 32 from rfl] at ht
    omega

theorem natToString_ne_nil (n : Nat) : natToString n ≠ [] := by
  unfold natToString
  split_ifs with h0
  · simp
  · intro hc
    rw [List.reverse_eq_nil_iff, List.map_eq_nil_iff] at hc
    cases n with
    | zero => exact h0 rfl
    | succ m =>
      rw [digitsFuel] at hc
      cases hc

theorem natToString_digit {n : Nat} {c : Char} (h : c ∈ natToString n) :
    48 ≤ c.toNat ∧ c.toNat ≤ 57 := by
  unfold natToString at h
  split_ifs at h with h0
  · rw [List.mem_singleton] at h
    subst h
    refine ⟨by decide, by decide⟩
  · rw [List.mem_reverse, List.mem_map] at h
    obtain ⟨d, hd, hc⟩ := h
    have hlt : d < 10 := digitsFuel_lt_ten hd
    subst hc
    rw [digitChar_toNat hlt]
    omega

theorem not_whitespace_of_digit {c : Char} (h : 48 ≤ c.toNat ∧ c.toNat ≤ 57) :
    isJsWhitespace c = false := by
  simp only [isJsWhitespace, Bool.or_eq_false_iff, beq_eq_false_iff_ne, ne_eq]
  refine ⟨⟨⟨⟨⟨fun hc => ?_, by omega⟩, by omega⟩, by omega⟩, by omega⟩, by omega⟩
  rw [hc, show (' ').toNat = 32 from rfl] at h
  omega

theorem trimWs_eq_self {s : Str} (h : ∀ c ∈ s, isJsWhitespace c = false) :
    trimWs s = s := by
  unfold trimWs
  have h1 : s.dropWhile isJsWhitespace = s := by
    cases s with
    | nil => rfl
    | cons c rest =>
      rw [List.dropWhile_cons, h c (List.mem_cons_self c rest)]
      simp
  rw [h1]
  have h2 : s.reverse.dropWhile isJsWhitespace = s.reverse := by
    cases hr : s.reverse with
    | nil => rfl
    | cons c rest =>
      rw [List.dropWhile_cons, h c (by
        rw [← List.mem_reverse, hr]
        exact List.mem_cons_self c rest)]
      simp
  rw [h2, List.reverse_reverse]

theorem jsStringToNumber_natToString (m : Nat) :
    jsStringToNumber (natToString m) = some (m : Int) := by
  have htrim : trimWs (natToString m) = natToString m :=
    trimWs_eq_self (fun c hc => not_whitespace_of_digit (natToString_digit hc))
  obtain ⟨c, rest, he⟩ := List.exists_cons_of_ne_nil (natToString_ne_nil m)
  have hc : 48 ≤ c.toNat ∧ c.toNat ≤ 57 := natToString_digit (by
    rw [he]
    exact List.mem_cons_self c rest)
  simp only [jsStringToNumber, htrim]
  rw [he, if_neg (by simp), List.headD_cons,
    if_neg (fun hm => by rw [hm, show ('-').toNat = 45 from rfl] at hc; omega),
    if_neg (fun hm => by rw [hm, show ('+').toNat = 43 from rfl] at hc; omega), ← he,
    parseDigits_natToString]
  rfl

theorem jsStringToNumber_intToString (n : Int) :
    jsStringToNumber (intToString n) = some n := by
  cases n with
  | ofNat m => exact jsStringToNumber_natToString m
  | negSucc m =>
    have hne : natToString (m + 1) ≠ [] := natToString_ne_nil (m + 1)
    have hmem : ∀ c ∈ intToString (Int.negSucc m), isJsWhitespace c = false := by
      intro c hc
      rw [show intToString (Int.negSucc m) = '-' :: natToString (m + 1) from rfl,
        List.mem_cons] at hc
      rcases hc with hc | hc
      · subst hc
        rfl
      · exact not_whitespace_of_digit (natToString_digit hc)
    have htrim := trimWs_eq_self hmem
    rw [show intToString (Int.negSucc m) = '-' :: natToString (m + 1) from rfl] at htrim ⊢
    simp only [jsStringToNumber, htrim]
    rw [if_neg (by simp), List.headD_cons, if_pos rfl, List.tail_cons,
      parseDigits_natToString]
    simp [Int.negSucc_eq]

/-! ## JavaScript dates

A `Date` whose time value is not NaN is modelled by its UTC calendar
fields.  Two `Date`s have equal time values exactly when all their UTC
fields agree, so the field tuple is a faithful representation.
`toISOString` prints the fields (with the expanded-year forms `+YYYYYY` and
`-YYYYYY` outside 0..9999), and parsing an ISO string reads them back,
rejecting out-of-range fields as `Date.parse` does.  The year-range check
approximates the exact ±8.64e15 ms clamp of the time value by whole years;
no claim exercises the boundary days of the extreme years. -/

structure JSDate where
  year : Int
  month : Nat
  day : Nat
  hour : Nat
  minute : Nat
  second : Nat
  ms : Nat
deriving DecidableEq

def isLeapYear (y : Int) : Bool :=
  y % 4 == 0 && (y % 100 != 0 || y % 400 == 0)

def daysInMonth (y : Int) (m : Nat) : Nat :=
  if m = 2 then (if isLeapYear y then 29 else 28)
  else if m = 4 ∨ m = 6 ∨ m = 9 ∨ m = 11 then 30
  else 31

def padDigits2 (n : Nat) : List Nat := [n / 10 % 10, n % 10]

def padDigits3 (n : Nat) : List Nat := [n / 100 % 10, n / 10 % 10, n % 10]

def padDigits4 (n : Nat) : List Nat := [n / 1000 % 10, n / 100 % 10, n / 10 % 10, n % 10]

def padDigits6 (n : Nat) : List Nat :=
  [n / 100000 % 10, n / 10000 % 10, n / 1000 % 10, n / 100 % 10, n / 10 % 10, n % 10]

def pad2 (n : Nat) : Str := (padDigits2 n).map digitChar

def pad3 (n : Nat) : Str := (padDigits3 n).map digitChar

def pad4 (n : Nat) : Str := (padDigits4 n).map digitChar

def pad6 (n : Nat) : Str := (padDigits6 n).map digitChar

def formatYear (y : Int) : Str :=
  if 0 ≤ y ∧ y ≤ 9999 then pad4 y.toNat
  else if 9999 < y then '+' :: pad6 y.toNat
  else '-' :: pad6 (-y).toNat

/-- `Date.prototype.toISOString`. -/
def formatDate (d : JSDate) : Str :=
  formatYear d.year ++ '-' :: (pad2 d.month ++ '-' :: (pad2 d.day ++ 'T' :: (pad2 d.hour ++
    ':' :: (pad2 d.minute ++ ':' :: (pad2 d.second ++ '.' :: (pad3 d.ms ++ ['Z']))))))

def parseFixed : Nat → Nat → Str → Option (Nat × Str)
  | acc, 0, s => some (acc, s)
  | _, _ + 1, [] => none
  | acc, w + 1, c :: rest =>
    if 48 ≤ c.toNat ∧ c.toNat ≤ 57 then parseFixed (10 * acc + (c.toNat - 48)) w rest
    else none

def expectChar (c : Char) : Str → Option Str
  | [] => none
  | x :: rest => if x = c then some rest else none

def parseYear (s : Str) : Option (Int × Str) :=
  match s with
  | [] => none
  | c :: rest =>
    if c = '+' then (parseFixed 0 6 rest).map (fun p => ((p.1 : Int), p.2))
    else if c = '-' then (parseFixed 0 6 rest).map (fun p => (-(p.1 : Int), p.2))
    else (parseFixed 0 4 (c :: rest)).map (fun p => ((p.1 : Int), p.2))

/-- Parsing of an ISO 8601 date-time string of the exact shape produced by
`toISOString`, with the field validation `Date.parse` performs. -/
def parseISODate (s : Str) : Option JSDate := do
  let (y, s) ← parseYear s
  let s ← expectChar '-' s
  let (mo, s) ← parseFixed 0 2 s
  let s ← expectChar '-' s
  let (d, s) ← parseFixed 0 2 s
  let s ← expectChar 'T' s
  let (h, s) ← parseFixed 0 2 s
  let s ← expectChar ':' s
  let (mi, s) ← parseFixed 0 2 s
  let s ← expectChar ':' s
  let (sec, s) ← parseFixed 0 2 s
  let s ← expectChar '.' s
  let (ms, s) ← parseFixed 0 3 s
  let s ← expectChar 'Z' s
  if s.isEmpty ∧ (-271821 ≤ y ∧ y ≤ 275760) ∧ (1 ≤ mo ∧ mo ≤ 12) ∧
      (1 ≤ d ∧ d ≤ daysInMonth y mo) ∧ h ≤ 23 ∧ mi ≤ 59 ∧ sec ≤ 59 then
    some ⟨y, mo, d, h, mi, sec, ms⟩
  else none

/-- The calendar-field tuples that arise from an actual (non-NaN) `Date`
value: fields in range, with the time-value clamp approximated by whole
years. -/
def ValidDate (d : JSDate) : Prop :=
  -271821 ≤ d.year ∧ d.year ≤ 275760 ∧ 1 ≤ d.month ∧ d.month ≤ 12 ∧ 1 ≤ d.day ∧
    d.day ≤ daysInMonth d.year d.month ∧ d.hour ≤ 23 ∧ d.minute ≤ 59 ∧
    d.second ≤ 59 ∧ d.ms ≤ 999

instance (d : JSDate) : Decidable (ValidDate d) := by
  unfold ValidDate
  infer_instance

theorem parseFixed_digits (bl : List Nat) (hd : ∀ d ∈ bl, d < 10) (acc : Nat) (r : Str) :
    parseFixed acc bl.length (bl.map digitChar ++ r) =
      some (bl.foldl (fun a d => 10 * a + d) acc, r) := by
  induction bl generalizing acc with
  | nil => rfl
  | cons d bl ih =>
    have hd0 : d < 10 := hd d (List.mem_cons_self d bl)
    rw [List.map_cons, List.cons_append, List.length_cons, parseFixed,
      digitChar_toNat hd0, if_pos (by omega : 48 ≤ 48 + d ∧ 48 + d ≤ 57),
      ih (fun x hx => hd x (List.mem_cons_of_mem d hx)), List.foldl_cons]
    congr 3
    omega

theorem parseFixed_pad2 {n : Nat} (h : n < 100) (r : Str) :
    parseFixed 0 2 (pad2 n ++ r) = some (n, r) := by
  rw [pad2, show (2 : Nat) = (padDigits2 n).length from rfl,
    parseFixed_digits (padDigits2 n) (by simp [padDigits2]; omega) 0 r]
  congr 2
  simp [padDigits2]
  omega

theorem parseFixed_pad3 {n : Nat} (h : n < 1000) (r : Str) :
    parseFixed 0 3 (pad3 n ++ r) = some (n, r) := by
  rw [pad3, show (3 : Nat) = (padDigits3 n).length from rfl,
    parseFixed_digits (padDigits3 n) (by simp [padDigits3]; omega) 0 r]
  congr 2
  simp [padDigits3]
  omega

theorem parseFixed_pad4 {n : Nat} (h : n < 10000) (r : Str) :
    parseFixed 0 4 (pad4 n ++ r) = some (n, r) := by
  rw [pad4, show (4 : Nat) = (padDigits4 n).length from rfl,
    parseFixed_digits (padDigits4 n) (by simp [padDigits4]; omega) 0 r]
  congr 2
  simp [padDigits4]
  omega

theorem parseFixed_pad6 {n : Nat} (h : n < 1000000) (r : Str) :
    parseFixed 0 6 (pad6 n ++ r) = some (n, r) := by
  rw [pad6, show (6 : Nat) = (padDigits6 n).length from rfl,
    parseFixed_digits (padDigits6 n) (by simp [padDigits6]; omega) 0 r]
  congr 2
  simp [padDigits6]
  omega

theorem expectChar_cons_self (c : Char) (r : Str) : expectChar c (c :: r) = some r := by
  rw [expectChar, if_pos rfl]

theorem parseYear_formatYear {y : Int} (h1 : -271821 ≤ y) (h2 : y ≤ 275760) (r : Str) :
    parseYear (formatYear y ++ r) = some (y, r) := by
  unfold formatYear
  split_ifs with hy1 hy2
  · have hlt : y.toNat < 10000 := by omega
    have hsplit : pad4 y.toNat ++ r = digitChar (y.toNat / 1000 % 10) ::
        (List.map digitChar [y.toNat / 100 % 10, y.toNat / 10 % 10, y.toNat % 10] ++ r) := by
      simp [pad4, padDigits4]
    have hdt : (digitChar (y.toNat / 1000 % 10)).toNat = 48 + y.toNat / 1000 % 10 :=
      digitChar_toNat (by omega)
    rw [hsplit, parseYear,
      if_neg (fun hc => by rw [hc, show ('+').toNat = 43 from rfl] at hdt; omega),
      if_neg (fun hc => by rw [hc, show ('-').toNat = 45 from rfl] at hdt; omega),
      ← hsplit, parseFixed_pad4 hlt]
    simp [Int.toNat_of_nonneg hy1.1]
  · have hpos : 0 ≤ y := by omega
    have hlt : y.toNat < 1000000 := by omega
    rw [List.cons_append, parseYear, if_pos rfl, parseFixed_pad6 hlt]
    simp [Int.toNat_of_nonneg hpos]
  · have hneg : 0 ≤ -y := by omega
    have hlt : (-y).toNat < 1000000 := by omega
    rw [List.cons_append, parseYear, if_neg (by decide), if_pos rfl, parseFixed_pad6 hlt]
    simp [Int.toNat_of_nonneg hneg]

theorem parseISODate_formatDate {d : JSDate} (h : ValidDate d) :
    parseISODate (formatDate d) = some d := by
  obtain ⟨hy1, hy2, hmo1, hmo2, hd1, hd2, hh, hmi, hs, hms⟩ := h
  have hdm : d.day ≤ 31 := le_trans hd2 (by
    unfold daysInMonth
    split_ifs <;> omega)
  rw [parseISODate, formatDate, parseYear_formatYear hy1 hy2]
  simp only [Option.bind_eq_bind]
  rw [Option.some_bind]
  dsimp only
  rw [expectChar_cons_self, Option.some_bind]
  rw [parseFixed_pad2 (show d.month < 100 by omega), Option.some_bind]
  dsimp only
  rw [expectChar_cons_self, Option.some_bind]
  rw [parseFixed_pad2 (show d.day < 100 by omega), Option.some_bind]
  dsimp only
  rw [expectChar_cons_self, Option.some_bind]
  rw [parseFixed_pad2 (show d.hour < 100 by omega), Option.some_bind]
  dsimp only
  rw [expectChar_cons_self, Option.some_bind]
  rw [parseFixed_pad2 (show d.minute < 100 by omega), Option.some_bind]
  dsimp only
  rw [expectChar_cons_self, Option.some_bind]
  rw [parseFixed_pad2 (show d.second < 100 by omega), Option.some_bind]
  dsimp only
  rw [expectChar_cons_self, Option.some_bind]
  rw [parseFixed_pad3 (show d.ms < 1000 by omega), Option.some_bind]
  dsimp only
  rw [expectChar_cons_self, Option.some_bind]
  rw [if_pos ⟨rfl, ⟨hy1, hy2⟩, ⟨hmo1, hmo2⟩, ⟨hd1, hd2⟩, hh, hmi, hs⟩]

/-! ## The standard codecs of the core package -/

/-- The `stringSettings` codec: decoder takes the first raw value
(`([value]) => value`), encoder wraps in a singleton. -/
def stringSettings : QueryParamSetting Str :=
  { decoder := fun value => value.head?
    encoder := fun value => [value] }

/-- The `booleanSettings` codec: decoder is `([value]) => value === "true"`,
a boolean for every input (also for an empty raw sequence, where `value` is
undefined); encoder is `[value.toString()]`. -/
def booleanSettings : QueryParamSetting Bool :=
  { decoder := fun value => some (value.head? == some (str "true"))
    encoder := fun value => [if value then str "true" else str "false"] }

/-- The `numberSettings` codec: decoder is `Number(value)` on the first raw
value with a NaN check (`Number(undefined)` for an empty sequence is NaN,
hence `none`); encoder is `[value.toString()]`. -/
def numberSettings : QueryParamSetting Int :=
  { decoder := fun value => (value.head?).bind jsStringToNumber
    encoder := fun value => [intToString value] }

/-- The `dateSettings` codec: decoder returns undefined for an absent or
empty (falsy) first raw value and otherwise builds `new Date(value)` with a
NaN check; of the permissive `Date` string parser only the ISO 8601 shape
produced by `toISOString` is modelled.  Encoder is `[value.toISOString()]`. -/
def dateSettings : QueryParamSetting JSDate :=
  { decoder := fun value =>
      (value.head?).bind (fun s => if s.isEmpty then none else parseISODate s)
    encoder := fun value => [formatDate value] }

/-- The `stringArraySettings` codec: decoder is
`(value) => value.length ? value : undefined`, encoder is the identity. -/
def stringArraySettings : QueryParamSetting (List Str) :=
  { decoder := fun value => if value.isEmpty then none else some value
    encoder := fun value => value }

/-! ## The getter, setter and snapshot of the core package -/

/-- `createGetter(config, queryString)`.  For each schema entry the source
computes `(!!value.length && setting.decoder(value)) || setting.defaultValue`
with `value = urlSearchParams.getAll(usedName)`: the JavaScript `&&`/`||`
chain produces the decoded value exactly when the raw sequence is non-empty
and the decoded value is truthy, and the `defaultValue` otherwise.  Note
that `new URLSearchParams(queryString)` with an undefined argument parses
the empty string — the current location is not read. -/
def createGetter {V : Type} [JSTruthy V] (config : List (Str × QueryParamSetting V))
    (queryString : Option Str) : List (Str × Option V) :=
  let urlSearchParams := parseQuery (queryString.getD [])
  config.map fun entry =>
    let setting := entry.2
    let usedName := setting.paramName.getD entry.1
    let value := getAll urlSearchParams usedName
    (entry.1,
      if value.isEmpty then setting.defaultValue
      else if optTruthy (setting.decoder value) then setting.decoder value
      else setting.defaultValue)

/-- A value in an update request: `null` removes the parameter, an
explicitly-undefined entry is a no-op, any other value sets it. -/
inductive UpdateValue (V : Type) where
  | null
  | undef
  | val (v : V)

/-- State threaded through the setter: the in-memory `URLSearchParams`
content and the list of search strings committed through
`history.replaceState`, in order.  The notification-bus polyfill dispatches
exactly one change event per `replaceState` call, so `commits.length` is
also the number of broadcasts the update produces. -/
structure SetterResult where
  params : List (Str × Str)
  commits : List Str
deriving DecidableEq

/-- One iteration of the `Object.keys(newValues).forEach` loop inside
`createSetter`.  For `null` the source runs `params.delete(name)` — the
request key itself, not the resolved `paramName` — and returns before
reaching the commit call.  For a set value it resolves
`usedName = config[name]?.paramName ?? name`, encodes via
`config[name]?.encoder(value) ?? []`, deletes the old entries of `usedName`,
appends the encoded values, and calls `window.history.replaceState` with
the updated URL — inside the loop, hence once per set key. -/
def setterStep {V : Type} (config : List (Str × QueryParamSetting V))
    (st : SetterResult) (entry : Str × UpdateValue V) : SetterResult :=
  match entry.2 with
  | UpdateValue.null => { st with params := deleteKey entry.1 st.params }
  | UpdateValue.undef => st
  | UpdateValue.val v =>
    let setting := List.lookup entry.1 config
    let usedName := (setting.bind (fun s => s.paramName)).getD entry.1
    let encodedValue := (setting.map (fun s => s.encoder v)).getD []
    let params := deleteKey usedName st.params ++
      encodedValue.map (fun ev => (usedName, ev))
    { params := params, commits := st.commits ++ [serializeQuery params] }

/-- `createSetter(config)(newValues)` run against the given
`window.location.search`. -/
def createSetter {V : Type} (config : List (Str × QueryParamSetting V))
    (newValues : List (Str × UpdateValue V)) (locationSearch : Str) : SetterResult :=
  newValues.foldl (setterStep config)
    { params := parseQuery locationSearch, commits := [] }

/-- `getSnapshot(names?)` over the given `window.location.search`.  With no
names the whole query string is re-serialized; with a list of names, the
values of each name are appended in list order after deleting whatever the
accumulator already held for that name. -/
def snapStep (params : List (Str × Str)) (keys : List (Str × Str)) (name : Str) :
    List (Str × Str) :=
  deleteKey name keys ++ (getAll params name).map (fun v => (name, v))

def getSnapshot (names : Option (List Str)) (locationSearch : Str) : Str :=
  match names with
  | none => serializeQuery (parseQuery locationSearch)
  | some names =>
    serializeQuery (names.foldl (snapStep (parseQuery locationSearch)) [])

/-- `getParamNames(config)`: the resolved wire key of each schema entry. -/
def getParamNames {V : Type} (config : List (Str × QueryParamSetting V)) : List Str :=
  config.map (fun entry => (entry.2.paramName).getD entry.1)

/-- The wire keys an update request touches: a `null` entry deletes the
request key itself (that is what `params.delete(name)` targets), while a
set entry rewrites the resolved wire key `config[name]?.paramName ?? name`. -/
def touchedKeys {V : Type} (config : List (Str × QueryParamSetting V))
    (newValues : List (Str × UpdateValue V)) : List Str :=
  newValues.flatMap fun entry =>
    match entry.2 with
    | UpdateValue.null => [entry.1]
    | UpdateValue.undef => []
    | UpdateValue.val _ =>
      [((List.lookup entry.1 config).bind (fun s => s.paramName)).getD entry.1]

/-! ## Claim theorems -/

/-- C1: the claim states that whenever the codec decodes a defined,
non-null value, the getter keeps it, and the default is used only for an
empty raw sequence or an undefined/null decode — in particular a decoded
`0` is never replaced by the default.  The code violates this: with setting
`{ ...numberSettings, defaultValue: 1 }` and query `"page=0"` the decoder
yields the defined value `0`, yet `createGetter` returns the default `1`,
because `(!!value.length && setting.decoder(value)) || setting.defaultValue`
lets the falsy decoded `0` fall through to the default. -/
theorem c1_decoded_zero_overridden_by_default :
    numberSettings.decoder [str "0"] = some 0 ∧
    createGetter [(str "page", { numberSettings with defaultValue := some 1 })]
      (some (str "page=0")) = [(str "page", some 1)] ∧
    some (1 : Int) ≠ some (0 : Int) :=
  ⟨by decide, by decide, by decide⟩

/-- C2: the claim states that one setter call commits exactly once and
broadcasts exactly once, regardless of the number of keys and also for
removal-only requests.  The code violates this: `history.replaceState` is
called inside the per-key loop, so a two-key update commits twice (and the
polyfill dispatches two change events), while a request containing only a
`null` removal returns from the loop body before the commit call and
commits zero times. -/
theorem c2_commit_and_broadcast_counts :
    (createSetter [(str "a", stringSettings), (str "b", stringSettings)]
      [(str "a", UpdateValue.val (str "x")), (str "b", UpdateValue.val (str "y"))]
      (str "")).commits.length = 2 ∧
    (createSetter [(str "q", stringSettings)] [(str "q", UpdateValue.null)]
      (str "?q=hi")).commits.length = 0 :=
  ⟨by decide, by decide⟩

/-- C3: the claim states that a `null` request value removes all
occurrences of the schema-resolved wire key (`paramName` if configured) and
that `{ q: null }` on `"?q=hi&page=1"` commits `"page=1"`.  The code
violates both parts: the `null` branch runs `params.delete(name)` on the
request key itself, so with `paramName: "query"` configured the wire key
`query` survives untouched; and the branch returns before the commit call,
so even in the claim's own scenario the shrunken query string is never
committed (`commits = []`). -/
theorem c3_null_deletes_request_key_and_commits_nothing :
    (createSetter [(str "q", { stringSettings with paramName := some (str "query") })]
      [(str "q", UpdateValue.null)] (str "query=hi&page=1")) =
      { params := [(str "query", str "hi"), (str "page", str "1")], commits := [] } ∧
    (createSetter [(str "q", stringSettings)] [(str "q", UpdateValue.null)]
      (str "?q=hi&page=1")) =
      { params := [(str "page", str "1")], commits := [] } :=
  ⟨by decide, by decide⟩

/-- C4: the claim states that calling the getter without a query string
reads the current location.  The code violates this: `new
URLSearchParams(undefined)` parses the empty string, so with the browser
location carrying `"q=hi"` the getter called without an argument yields the
default (`undefined`), not the location's decode — the undefined argument
behaves exactly like an explicitly empty query string. -/
theorem c4_undefined_query_string_means_empty :
    createGetter [(str "q", stringSettings)] none = [(str "q", none)] ∧
    createGetter [(str "q", stringSettings)] (some (str "q=hi")) =
      [(str "q", some (str "hi"))] ∧
    createGetter [(str "q", stringSettings)] none ≠
      createGetter [(str "q", stringSettings)] (some (str "q=hi")) ∧
    createGetter [(str "q", stringSettings)] none =
      createGetter [(str "q", stringSettings)] (some []) :=
  ⟨by decide, by decide, by decide, by decide⟩

/-- C8 counterexample: the claim states that the boolean codec decodes an
absent raw value (empty raw-value sequence) to absent (`undefined`).  In
the code, `([value]) => value === "true"` applied to the empty sequence
destructures `value = undefined` and returns the boolean `false`, not
`undefined`. -/
theorem c8_counterexample_boolean_codec_empty :
    booleanSettings.decoder [] = some false ∧ (some false : Option Bool) ≠ none :=
  ⟨by decide, by decide⟩

/-- C8 amended: the boolean codec decodes `"false"` to `false`; applied
directly to an empty raw-value sequence it also returns `false` (because
`undefined === "true"` is `false`), not absent.  Absence surfaces as absent
only at the getter level, which short-circuits on an empty raw-value
sequence and yields the configured default (`undefined` when none) without
invoking the decoder. -/
theorem c8_boolean_codec_and_getter_on_absence :
    booleanSettings.decoder [str "false"] = some false ∧
    booleanSettings.decoder [] = some false ∧
    createGetter [(str "flag", booleanSettings)] (some []) = [(str "flag", none)] :=
  ⟨by decide, by decide, by decide⟩

/-- C9: the number codec's decoder on the raw-value sequence `[""]` (a
parameter present with an empty value such as `"page="`) returns `0`, not
absent, because `Number("")` evaluates to `0`. -/
theorem c9_number_decoder_empty_string_is_zero :
    numberSettings.decoder [str ""] = some 0 ∧ (some (0 : Int)) ≠ none :=
  ⟨by decide, by decide⟩

theorem formatDate_ne_nil (d : JSDate) : formatDate d ≠ [] := by
  rw [formatDate]
  simp

/-- C6: for every standard codec except boolean, decoding the encoding of a
representable value recovers an equal value — for all integers (the modelled
non-NaN numbers), all non-empty strings, all valid dates, and all non-empty
string lists. -/
theorem c6_codec_round_trip :
    (∀ s : Str, s ≠ [] → stringSettings.decoder (stringSettings.encoder s) = some s) ∧
    (∀ n : Int, numberSettings.decoder (numberSettings.encoder n) = some n) ∧
    (∀ d : JSDate, ValidDate d →
      dateSettings.decoder (dateSettings.encoder d) = some d) ∧
    (∀ l : List Str, l ≠ [] →
      stringArraySettings.decoder (stringArraySettings.encoder l) = some l) := by
  refine ⟨fun s _ => rfl, fun n => ?_, fun d hd => ?_, fun l hl => ?_⟩
  · show (some (intToString n)).bind jsStringToNumber = some n
    rw [Option.some_bind, jsStringToNumber_intToString]
  · show (some (formatDate d)).bind
        (fun s => if s.isEmpty then none else parseISODate s) = some d
    rw [Option.some_bind, if_neg (by
      simp only [List.isEmpty_eq_true]
      exact formatDate_ne_nil d)]
    exact parseISODate_formatDate hd
  · show (if l.isEmpty then none else some l) = some l
    rw [if_neg (by
      simp only [List.isEmpty_eq_true]
      exact hl)]

/-- Witness for C6 at concrete representable values of each codec. -/
theorem c6_codec_round_trip_witness :
    stringSettings.decoder (stringSettings.encoder (str "a")) = some (str "a") ∧
    numberSettings.decoder (numberSettings.encoder (-42)) = some (-42) ∧
    dateSettings.decoder (dateSettings.encoder ⟨2024, 2, 29, 23, 59, 59, 999⟩) =
      some ⟨2024, 2, 29, 23, 59, 59, 999⟩ ∧
    stringArraySettings.decoder (stringArraySettings.encoder [str "x", str ""]) =
      some [str "x", str ""] :=
  ⟨c6_codec_round_trip.1 (str "a") (by decide), c6_codec_round_trip.2.1 (-42),
    c6_codec_round_trip.2.2.1 ⟨2024, 2, 29, 23, 59, 59, 999⟩ (by decide),
    c6_codec_round_trip.2.2.2 [str "x", str ""] (by decide)⟩

theorem filter_deleteKey {T : List Str} {k : Str} (hk : k ∈ T) (l : List (Str × Str)) :
    (deleteKey k l).filter (fun p => p.1 ∉ T) = l.filter (fun p => p.1 ∉ T) := by
  induction l with
  | nil => rfl
  | cons p l ih =>
    by_cases hpk : p.1 = k
    · rw [deleteKey, List.filter_cons]
      rw [if_neg (by simp [hpk])]
      rw [show (p :: l).filter (fun q => decide (q.1 ∉ T)) =
        l.filter (fun q => decide (q.1 ∉ T)) by
          rw [List.filter_cons, if_neg (by simp [hpk, hk])]]
      exact ih
    · rw [deleteKey, List.filter_cons, if_pos (by simp [hpk]), List.filter_cons,
        List.filter_cons]
      rw [show deleteKey k l = l.filter (fun q => q.1 != k) from rfl] at ih
      by_cases hT : p.1 ∈ T
      · rw [if_neg (by simp [hT]), if_neg (by simp [hT])]
        exact ih
      · rw [if_pos (by simp [hT]), if_pos (by simp [hT]), ih]

theorem setter_foldl_untouched {V : Type} (config : List (Str × QueryParamSetting V))
    (T : List Str) :
    ∀ (entries : List (Str × UpdateValue V)) (st : SetterResult),
      (∀ e ∈ entries, ∀ k ∈ touchedKeys config [e], k ∈ T) →
      ((entries.foldl (setterStep config) st).params.filter (fun p => p.1 ∉ T)) =
        st.params.filter (fun p => p.1 ∉ T) := by
  intro entries
  induction entries with
  | nil => intro st h; rfl
  | cons e rest ih =>
    intro st h
    rw [List.foldl_cons, ih (setterStep config st e)
      (fun x hx k hk => h x (List.mem_cons_of_mem e hx) k hk)]
    rcases he : e.2 with _ | _ | v
    · rw [show setterStep config st e = { st with params := deleteKey e.1 st.params } by
        rw [setterStep, he]]
      exact filter_deleteKey (h e (List.mem_cons_self e rest) e.1
        (by simp [touchedKeys, he])) st.params
    · rw [show setterStep config st e = st by rw [setterStep, he]]
    · have hu : (((List.lookup e.1 config).bind (fun s => s.paramName)).getD e.1) ∈ T :=
        h e (List.mem_cons_self e rest) _ (by simp [touchedKeys, he])
      rw [show (setterStep config st e).params =
        deleteKey (((List.lookup e.1 config).bind (fun s => s.paramName)).getD e.1)
            st.params ++
          (((List.lookup e.1 config).map (fun s => s.encoder v)).getD []).map
            (fun ev => ((((List.lookup e.1 config).bind (fun s => s.paramName)).getD e.1), ev))
        by rw [setterStep, he]]
      rw [List.filter_append, filter_deleteKey hu st.params]
      rw [show ((((List.lookup e.1 config).map (fun s => s.encoder v)).getD []).map
            (fun ev => ((((List.lookup e.1 config).bind
              (fun s => s.paramName)).getD e.1), ev))).filter
            (fun p => decide (p.1 ∉ T)) = [] from
          List.filter_eq_nil_iff.mpr (fun p hp => by
            rw [List.mem_map] at hp
            obtain ⟨ev, -, hev⟩ := hp
            simp [← hev, hu]), List.append_nil]

/-- C5 amended: the setter's final parameter list keeps every entry whose
wire key is untouched (matching neither a null entry's request key nor a set
entry's resolved wire key) unchanged and in its original relative order; the
committed query string is the canonical re-serialization of that list, so
the original byte representation of untouched entries (for example
lowercase percent escapes) is normalized, not preserved byte-for-byte. -/
theorem c5_untouched_entries_preserved {V : Type}
    (config : List (Str × QueryParamSetting V))
    (newValues : List (Str × UpdateValue V)) (locationSearch : Str) :
    (createSetter config newValues locationSearch).params.filter
        (fun p => p.1 ∉ touchedKeys config newValues) =
      (parseQuery locationSearch).filter
        (fun p => p.1 ∉ touchedKeys config newValues) := by
  rw [createSetter]
  exact setter_foldl_untouched config (touchedKeys config newValues) newValues
    { params := parseQuery locationSearch, commits := [] }
    (fun e he k hk => by
      simp only [touchedKeys, List.mem_flatMap] at hk ⊢
      obtain ⟨x, hx, hkx⟩ := hk
      rw [List.mem_singleton] at hx
      exact ⟨e, he, hx ▸ hkx⟩)

/-- C5 counterexample: on `"?a=%2f&page=1"` the update `{ page: 2 }`
commits `"a=%2F&page=2"`: the untouched key `a` keeps its decoded content
and position, but its byte representation changes from the lowercase escape
`%2f` to the canonical `%2F`, so the untouched key is not byte-for-byte
unchanged as the claim states. -/
theorem c5_counterexample_encoding_not_byte_for_byte :
    (createSetter [(str "page", numberSettings)]
      [(str "page", UpdateValue.val (2 : Int))] (str "?a=%2f&page=1")).commits =
      [str "a=%2F&page=2"] ∧
    str "a=%2F&page=2" ≠ str "a=%2f&page=2" ∧
    getAll (parseQuery (str "a=%2F&page=2")) (str "a") =
      getAll (parseQuery (str "?a=%2f&page=1")) (str "a") :=
  ⟨by decide, by decide, by decide⟩

theorem filterKey_block (ps : List (Str × Str)) {n m : Str} :
    ((getAll ps m).map (fun v => (m, v))).filter (fun p => p.1 == n) =
      if n = m then (getAll ps n).map (fun v => (n, v)) else [] := by
  by_cases hnm : n = m
  · subst hnm
    rw [if_pos rfl]
    exact List.filter_eq_self.mpr (fun p hp => by
      rw [List.mem_map] at hp
      obtain ⟨v, -, hv⟩ := hp
      simp [← hv])
  · rw [if_neg hnm]
    exact List.filter_eq_nil_iff.mpr (fun p hp => by
      rw [List.mem_map] at hp
      obtain ⟨v, -, hv⟩ := hp
      simp [← hv]
      exact fun hc => hnm hc.symm)

theorem filterKey_deleteKey {n m : Str} (l : List (Str × Str)) :
    (deleteKey m l).filter (fun p => p.1 == n) =
      if n = m then [] else l.filter (fun p => p.1 == n) := by
  by_cases hnm : n = m
  · subst hnm
    rw [if_pos rfl]
    exact List.filter_eq_nil_iff.mpr (fun p hp => by
      rw [deleteKey, List.mem_filter] at hp
      simp only [bne_iff_ne, ne_eq, decide_eq_true_eq] at hp
      simp [hp.2])
  · rw [if_neg hnm, deleteKey]
    induction l with
    | nil => rfl
    | cons p l ih =>
      by_cases hpm : p.1 = m
      · rw [show List.filter (fun q => q.1 != m) (p :: l) =
            List.filter (fun q => q.1 != m) l by
          rw [List.filter_cons, if_neg (by simp [hpm])]]
        rw [show List.filter (fun q => q.1 == n) (p :: l) =
            List.filter (fun q => q.1 == n) l by
          rw [List.filter_cons, if_neg (by
            simp only [beq_iff_eq, hpm]
            exact fun hc => hnm hc.symm)]]
        exact ih
      · rw [show List.filter (fun q => q.1 != m) (p :: l) =
            p :: List.filter (fun q => q.1 != m) l by
          rw [List.filter_cons, if_pos (by simp [hpm])]]
        rw [List.filter_cons, List.filter_cons]
        by_cases hpn : p.1 = n
        · rw [if_pos (by simp [hpn]), if_pos (by simp [hpn]), ih]
        · rw [if_neg (by simp [hpn]), if_neg (by simp [hpn])]
          exact ih

theorem snapFold_filterKey (ps : List (Str × Str)) (names : List Str) :
    ∀ (acc : List (Str × Str)) (n : Str),
      (names.foldl (snapStep ps) acc).filter (fun p => p.1 == n) =
        if n ∈ names then (getAll ps n).map (fun v => (n, v))
        else acc.filter (fun p => p.1 == n) := by
  induction names with
  | nil =>
    intro acc n
    rw [List.foldl_nil, if_neg (List.not_mem_nil n)]
  | cons m rest ih =>
    intro acc n
    rw [List.foldl_cons, ih]
    by_cases hr : n ∈ rest
    · rw [if_pos hr, if_pos (List.mem_cons_of_mem m hr)]
    · rw [if_neg hr]
      rw [show (snapStep ps acc m).filter (fun p => p.1 == n) =
          (deleteKey m acc).filter (fun p => p.1 == n) ++
            ((getAll ps m).map (fun v => (m, v))).filter (fun p => p.1 == n) by
        rw [snapStep, List.filter_append], filterKey_deleteKey, filterKey_block]
      by_cases hnm : n = m
      · subst hnm
        rw [if_pos rfl, if_pos rfl, if_pos (List.mem_cons_self n rest), List.nil_append]
      · rw [if_neg hnm, if_neg hnm, if_neg (by
          rw [List.mem_cons]
          rintro (hc | hc)
          · exact hnm hc
          · exact hr hc), List.append_nil]

theorem snapFold_congr {ps1 ps2 : List (Str × Str)} (names : List Str)
    (h : ∀ n ∈ names, getAll ps1 n = getAll ps2 n) :
    ∀ acc : List (Str × Str),
      names.foldl (snapStep ps1) acc = names.foldl (snapStep ps2) acc := by
  induction names with
  | nil => intro acc; rfl
  | cons m rest ih =>
    intro acc
    rw [List.foldl_cons, List.foldl_cons,
      show snapStep ps1 acc m = snapStep ps2 acc m by
        rw [snapStep, snapStep, h m (List.mem_cons_self m rest)]]
    exact ih (fun n hn => h n (List.mem_cons_of_mem m hn)) _

/-- C7 amended: with an explicit wire-key list, two snapshots are equal
exactly when the per-key value sequences of every listed key agree in the
two query strings, regardless of the order in which the keys appear there.
(With no list the snapshot preserves the original entry order, see the
counterexample.) -/
theorem c7_snapshot_eq_iff (names : List Str) (qs1 qs2 : Str) :
    getSnapshot (some names) qs1 = getSnapshot (some names) qs2 ↔
      ∀ n ∈ names, getAll (parseQuery qs1) n = getAll (parseQuery qs2) n := by
  rw [getSnapshot, getSnapshot]
  constructor
  · intro h n hn
    have h2 := congrArg parseQuery h
    rw [parseQuery_serializeQuery, parseQuery_serializeQuery] at h2
    have h3 := congrArg (List.filter (fun p => p.1 == n)) h2
    rw [snapFold_filterKey, snapFold_filterKey, if_pos hn, if_pos hn] at h3
    have h4 := congrArg (List.map Prod.snd) h3
    simpa [List.map_map] using h4
  · intro h
    rw [snapFold_congr names h]

/-- C7 counterexample: with no wire-key list the snapshot is the re-
serialization of the query string in its original entry order, so the two
query strings `"a=1&b=2"` and `"b=2&a=1"`, whose key/value multisets are
equal, produce different snapshots. -/
theorem c7_counterexample_no_schema_order_sensitive :
    getSnapshot none (str "a=1&b=2") = str "a=1&b=2" ∧
    getSnapshot none (str "b=2&a=1") = str "b=2&a=1" ∧
    getSnapshot none (str "a=1&b=2") ≠ getSnapshot none (str "b=2&a=1") ∧
    (parseQuery (str "a=1&b=2")).Perm (parseQuery (str "b=2&a=1")) :=
  ⟨by decide, by decide, by decide, by decide⟩

/-- C10: a request key without a schema entry whose value is neither null
nor undefined resolves `usedName` to the key itself and the encoder
fallback `config[name]?.encoder(value) ?? []` to the empty sequence, so the
setter deletes every existing occurrence of the key and appends nothing. -/
theorem c10_unknown_key_removes_parameter {V : Type}
    (config : List (Str × QueryParamSetting V)) (key : Str) (v : V) (qs : Str)
    (h : List.lookup key config = none) :
    (createSetter config [(key, UpdateValue.val v)] qs).params =
      deleteKey key (parseQuery qs) := by
  rw [createSetter, List.foldl_cons, List.foldl_nil]
  rw [show setterStep config { params := parseQuery qs, commits := [] }
      (key, UpdateValue.val v) =
    { params := deleteKey (((List.lookup key config).bind (fun s => s.paramName)).getD key)
        (parseQuery qs) ++
        (((List.lookup key config).map (fun s => s.encoder v)).getD []).map
          (fun ev => ((((List.lookup key config).bind (fun s => s.paramName)).getD key), ev)),
      commits := [] ++ [serializeQuery
        (deleteKey (((List.lookup key config).bind (fun s => s.paramName)).getD key)
          (parseQuery qs) ++
          (((List.lookup key config).map (fun s => s.encoder v)).getD []).map
            (fun ev => ((((List.lookup key config).bind
              (fun s => s.paramName)).getD key), ev)))] } from rfl]
  rw [h]
  simp

/-- Witness for C10: the unknown key `x` is deleted from `"x=1&q=2"` and
nothing is appended. -/
theorem c10_unknown_key_removes_parameter_witness :
    List.lookup (str "x") [(str "q", stringSettings)] = none ∧
    (createSetter [(str "q", stringSettings)]
      [(str "x", UpdateValue.val (str "v"))] (str "x=1&q=2")).params =
      deleteKey (str "x") (parseQuery (str "x=1&q=2")) :=
  ⟨rfl, c10_unknown_key_removes_parameter [(str "q", stringSettings)] (str "x")
    (str "v") (str "x=1&q=2") rfl⟩
